import Mathlib

/-!
# mostly-good-proxy: client-IP resolution and request relaying

A shallow embedding of `main.go` (the `getClientIP` resolver and the HTTP handler
registered in `main`) together with the parts of the Go standard library the two
functions call (`strings`, `unicode/utf8`, `unicode`, `net/textproto`, `net/http`).

Go strings are byte sequences: a `GoString` is the list of the bytes of the string, and every
index (`LastIndex`, slice bounds) is a byte index, as in Go.  A Go panic (slice bounds,
index out of range, invalid `WriteHeader` code) is an `Except.error`.
-/

set_option autoImplicit false

namespace MgmProxy

/-- A Go `string`: its bytes, in order. -/
abbrev GoString := List Nat

/-- The bytes of an ASCII string literal of the source. -/
def bytes (s : String) : GoString := s.data.map Char.toNat

/-- A Go run-time panic. -/
inductive Panic where
  | sliceBounds
  | indexOutOfRange
  | invalidWriteHeaderCode
  deriving DecidableEq

deriving instance DecidableEq for Except

/-- The slice expression `s[lo:hi]`: panics unless `0 ≤ lo ≤ hi ≤ len(s)`. -/
def slice (s : GoString) (lo hi : Int) : Except Panic GoString :=
  if 0 ≤ lo ∧ lo ≤ hi ∧ hi ≤ (s.length : Int) then
    .ok ((s.drop lo.toNat).take (hi.toNat - lo.toNat))
  else
    .error .sliceBounds

/-- The index expression `a[i]` on a slice of strings: panics when `i` is out of range. -/
def index (a : List GoString) (i : Nat) : Except Panic GoString :=
  match a.get? i with
  | some x => .ok x
  | none => .error .indexOutOfRange

/-! ## unicode/utf8 and unicode -/

namespace utf8

/-- The replacement rune U+FFFD returned for an invalid encoding. -/
def RuneError : Nat := 0xFFFD

/-- The table `first` combined with `acceptRanges`: for a leading byte, the length of the
encoding and the accepted range of the second byte; `none` for a byte that starts no
multi-byte encoding. -/
def first (b : Nat) : Option (Nat × Nat × Nat) :=
  if 0xC2 ≤ b ∧ b ≤ 0xDF then some (2, 0x80, 0xBF)
  else if b = 0xE0 then some (3, 0xA0, 0xBF)
  else if 0xE1 ≤ b ∧ b ≤ 0xEC then some (3, 0x80, 0xBF)
  else if b = 0xED then some (3, 0x80, 0x9F)
  else if 0xEE ≤ b ∧ b ≤ 0xEF then some (3, 0x80, 0xBF)
  else if b = 0xF0 then some (4, 0x90, 0xBF)
  else if 0xF1 ≤ b ∧ b ≤ 0xF3 then some (4, 0x80, 0xBF)
  else if b = 0xF4 then some (4, 0x80, 0x8F)
  else none

/-- The function `utf8.DecodeRuneInString`: the first rune of `s` and its width in bytes;
`(RuneError, 0)` for the empty string and `(RuneError, 1)` for an invalid encoding.
The masks `s0&mask2`, `s1&maskx`, ... are written as remainders and the shifts as
products. -/
def DecodeRuneInString (s : GoString) : Nat × Nat :=
  let n := s.length
  if n < 1 then (RuneError, 0) else
  let s0 := s.getD 0 0
  if s0 < 0x80 then (s0, 1) else
  match first s0 with
  | none => (RuneError, 1)
  | some (sz, lo, hi) =>
    if n < sz then (RuneError, 1) else
    let s1 := s.getD 1 0
    if s1 < lo ∨ hi < s1 then (RuneError, 1) else
    if sz ≤ 2 then ((s0 % 32) * 64 + s1 % 64, 2) else
    let s2 := s.getD 2 0
    if s2 < 0x80 ∨ 0xBF < s2 then (RuneError, 1) else
    if sz ≤ 3 then ((s0 % 16) * 4096 + (s1 % 64) * 64 + s2 % 64, 3) else
    let s3 := s.getD 3 0
    if s3 < 0x80 ∨ 0xBF < s3 then (RuneError, 1) else
    ((s0 % 8) * 262144 + (s1 % 64) * 4096 + (s2 % 64) * 64 + s3 % 64, 4)

/-- The function `utf8.RuneStart`: the byte is not a continuation byte (`b&0xC0 != 0x80`). -/
def RuneStart (b : Nat) : Bool := !(0x80 ≤ b ∧ b ≤ 0xBF)

/-- The backwards loop of `DecodeLastRuneInString`,
`for start--; start >= lim; start-- { if RuneStart(s[start]) { break } }`, entered at
`start`: the value of `start` when the loop is left (`-1` when it runs below index 0). -/
def scanBack (s : GoString) (lim : Nat) : Nat → Int
  | 0 => if 0 < lim then 0 else if RuneStart (s.getD 0 0) then 0 else -1
  | start + 1 =>
    if start + 1 < lim then (start + 1 : Int)
    else if RuneStart (s.getD (start + 1) 0) then (start + 1 : Int)
    else scanBack s lim start

/-- The function `utf8.DecodeLastRuneInString`: the last rune of `s` and its width. -/
def DecodeLastRuneInString (s : GoString) : Nat × Nat :=
  let e := s.length
  if e = 0 then (RuneError, 0) else
  let r := s.getD (e - 1) 0
  if r < 0x80 then (r, 1) else
  let lim := e - 4
  let start : Int := if e < 2 then -1 else scanBack s lim (e - 2)
  let start : Nat := if start < 0 then 0 else start.toNat
  let (r, size) := DecodeRuneInString ((s.drop start).take (e - start))
  if start + size ≠ e then (RuneError, 1) else (r, size)

end utf8

namespace unicode

/-- The function `unicode.IsSpace`: the code points with the Unicode White_Space property. -/
def IsSpace (r : Nat) : Bool :=
  if r ≤ 0xFF then
    r = 0x09 ∨ r = 0x0A ∨ r = 0x0B ∨ r = 0x0C ∨ r = 0x0D ∨ r = 0x20 ∨ r = 0x85 ∨ r = 0xA0
  else
    r = 0x1680 ∨ (0x2000 ≤ r ∧ r ≤ 0x200A) ∨ r = 0x2028 ∨ r = 0x2029 ∨ r = 0x202F
      ∨ r = 0x205F ∨ r = 0x3000

end unicode

/-! ## strings -/

namespace strings

/-- The byte offset of the first instance of `substr` in `s`, if any. -/
def indexOf? (substr : GoString) : GoString → Option Nat
  | [] => if substr = [] then some 0 else none
  | c :: t =>
    if substr.isPrefixOf (c :: t) then some 0 else (indexOf? substr t).map (· + 1)

/-- The byte offset of the last instance of `substr` in `s`, if any. -/
def lastIndexOf? (substr : GoString) : GoString → Option Nat
  | [] => if substr = [] then some 0 else none
  | c :: t =>
    match lastIndexOf? substr t with
    | some i => some (i + 1)
    | none => if substr.isPrefixOf (c :: t) then some 0 else none

/-- The function `strings.Index`: the index of the first instance of `substr` in `s`, or
`-1` if `substr` is not present in `s`. -/
def Index (s substr : GoString) : Int :=
  match indexOf? substr s with
  | some i => (i : Int)
  | none => -1

/-- The function `strings.LastIndex`: the index of the last instance of `substr` in `s`,
or `-1` if `substr` is not present in `s`. -/
def LastIndex (s substr : GoString) : Int :=
  match lastIndexOf? substr s with
  | some i => (i : Int)
  | none => -1

/-- The function `strings.Contains`: `Index(s, substr) >= 0`. -/
def Contains (s substr : GoString) : Bool := decide (0 ≤ Index s substr)

/-- The rune loop of `utf8.RuneCountInString`, over at most `fuel` runes. -/
def runeCountLoop : Nat → GoString → Nat
  | 0, _ => 0
  | fuel + 1, s =>
    if s = [] then 0 else 1 + runeCountLoop fuel (s.drop (utf8.DecodeRuneInString s).2)

/-- The function `utf8.RuneCountInString`; a rune takes at least one byte, so `len(s)`
rounds of the loop reach the end of `s`. -/
def RuneCountInString (s : GoString) : Nat := runeCountLoop s.length s

/-- The loop of `strings.Count` for a non-empty `substr`, over at most `fuel` rounds. -/
def countLoop (substr : GoString) : Nat → GoString → Nat
  | 0, _ => 0
  | fuel + 1, s =>
    match indexOf? substr s with
    | none => 0
    | some i => 1 + countLoop substr fuel (s.drop (i + substr.length))

/-- The function `strings.Count`: the number of non-overlapping instances of `substr` in
`s`; for an empty `substr`, one more than the number of runes of `s`.  Each round of the
loop removes at least one byte of `s`, so `len(s)` rounds reach the end. -/
def Count (s substr : GoString) : Nat :=
  if substr = [] then RuneCountInString s + 1 else countLoop substr s.length s

/-- The function `strings.explode` with `n = -1`: `s` cut into its UTF-8 sequences. -/
def explode : Nat → GoString → List GoString
  | 0, _ => []
  | fuel + 1, s =>
    if s = [] then []
    else
      let size := (utf8.DecodeRuneInString s).2
      s.take size :: explode fuel (s.drop size)

/-- The loop of `strings.genSplit` (`sepSave = 0`): at most `n` cuts at instances of
`sep`, then the rest of `s` as last element. -/
def genSplitLoop (sep : GoString) : Nat → GoString → List GoString
  | 0, s => [s]
  | n + 1, s =>
    match indexOf? sep s with
    | none => [s]
    | some m => s.take m :: genSplitLoop sep n (s.drop (m + sep.length))

/-- The function `strings.Split(s, sep)`, which is `genSplit(s, sep, 0, -1)`: `s` cut at
every instance of `sep` (`Count(s, sep) + 1` pieces); into UTF-8 sequences when `sep`
is empty. -/
def Split (s sep : GoString) : List GoString :=
  if sep = [] then explode s.length s else genSplitLoop sep (Count s sep) s

/-- The function `strings.TrimLeftFunc(s, f)`: `s` without its leading runes that satisfy
`f`.  The first argument counts the bytes of the rune being removed that are still to
drop. -/
def trimLeftLoop (f : Nat → Bool) : Nat → GoString → GoString
  | _, [] => []
  | k + 1, _ :: t => trimLeftLoop f k t
  | 0, c :: t =>
    let (r, size) := utf8.DecodeRuneInString (c :: t)
    if f r then trimLeftLoop f (size - 1) t else c :: t

/-- The function `strings.TrimRightFunc(s, f)` on the reversed string: `s` without its
trailing runes that satisfy `f`, each decoded by `DecodeLastRuneInString`. -/
def trimRightLoop (f : Nat → Bool) : Nat → GoString → GoString
  | _, [] => []
  | k + 1, _ :: t => trimRightLoop f k t
  | 0, c :: t =>
    let (r, size) := utf8.DecodeLastRuneInString (c :: t).reverse
    if f r then trimRightLoop f (size - 1) t else c :: t

/-- The function `strings.TrimLeftFunc`. -/
def TrimLeftFunc (s : GoString) (f : Nat → Bool) : GoString := trimLeftLoop f 0 s

/-- The function `strings.TrimRightFunc`. -/
def TrimRightFunc (s : GoString) (f : Nat → Bool) : GoString :=
  (trimRightLoop f 0 s.reverse).reverse

/-- The function `strings.TrimFunc`: `TrimRightFunc(TrimLeftFunc(s, f), f)`. -/
def TrimFunc (s : GoString) (f : Nat → Bool) : GoString :=
  TrimRightFunc (TrimLeftFunc s f) f

/-- The function `strings.TrimSpace`: `s` with all leading and trailing white space
removed, as defined by Unicode, that is `TrimFunc(s, unicode.IsSpace)` (the ASCII fast
path of the library returns the same slice). -/
def TrimSpace (s : GoString) : GoString := TrimFunc s unicode.IsSpace

end strings

/-! ## net/textproto and net/http headers -/

namespace textproto

/-- The function `validHeaderFieldByte`: the byte is an RFC 7230 token character. -/
def validHeaderFieldByte (c : Nat) : Bool :=
  (48 ≤ c ∧ c ≤ 57) ∨ (65 ≤ c ∧ c ≤ 90) ∨ (97 ≤ c ∧ c ≤ 122) ∨
  c = 33 ∨ c = 35 ∨ c = 36 ∨ c = 37 ∨ c = 38 ∨ c = 39 ∨ c = 42 ∨ c = 43 ∨
  c = 45 ∨ c = 46 ∨ c = 94 ∨ c = 95 ∨ c = 96 ∨ c = 124 ∨ c = 126

/-- The case loop of `canonicalMIMEHeaderKey`: upper case for the first letter and for a
letter after a hyphen, lower case for every other letter. -/
def canonLoop : Bool → GoString → GoString
  | _, [] => []
  | upper, c :: t =>
    let d := if upper ∧ 97 ≤ c ∧ c ≤ 122 then c - 32
             else if ¬ upper ∧ 65 ≤ c ∧ c ≤ 90 then c + 32 else c
    d :: canonLoop (d = 45) t

/-- The function `textproto.CanonicalMIMEHeaderKey`: the canonical form of a header key;
a key with a space or an invalid header field byte is returned without modification. -/
def CanonicalMIMEHeaderKey (s : GoString) : GoString :=
  if s.all validHeaderFieldByte then canonLoop true s else s

end textproto

namespace http

/-- The type `http.Header`, a `map[string][]string`, as the list of its entries; the order
of the list is the order in which `range` visits the map. -/
abbrev Header := List (GoString × List GoString)

/-- The map read `h[k]` (`nil` for a missing key). -/
def Header.lookup (h : Header) (k : GoString) : List GoString :=
  match h with
  | [] => []
  | (k1, v1) :: t => if k1 = k then v1 else Header.lookup t k

/-- The map write `h[k] = v`. -/
def Header.store (h : Header) (k : GoString) (v : List GoString) : Header :=
  match h with
  | [] => [(k, v)]
  | (k1, v1) :: t => if k1 = k then (k, v) :: t else (k1, v1) :: Header.store t k v

/-- The method `Header.Get`: the first value associated with the canonical form of
`key`, `""` when there is none. -/
def Header.Get (h : Header) (key : GoString) : GoString :=
  match Header.lookup h (textproto.CanonicalMIMEHeaderKey key) with
  | [] => []
  | v :: _ => v

/-- The method `Header.Add`: appends `value` to the values of the canonical form of `key`. -/
def Header.Add (h : Header) (key value : GoString) : Header :=
  let key := textproto.CanonicalMIMEHeaderKey key
  Header.store h key (Header.lookup h key ++ [value])

/-- The method `Header.Set`: the canonical form of `key` gets the single value `value`. -/
def Header.Set (h : Header) (key value : GoString) : Header :=
  Header.store h (textproto.CanonicalMIMEHeaderKey key) [value]

/-- The inbound `*http.Request`, with the fields the program reads: `r.Method`,
`r.URL.Path`, `r.URL.RequestURI()`, `r.Header`, `r.Body` and `r.RemoteAddr`. -/
structure Request where
  Method : GoString
  Path : GoString
  RequestURI : GoString
  Header : Header
  Body : GoString
  RemoteAddr : GoString
  deriving DecidableEq

/-- The method `Header.Del`: removes the values of the canonical form of `key`. -/
def Header.Del (h : Header) (key : GoString) : Header :=
  h.filter (fun e => e.1 ≠ textproto.CanonicalMIMEHeaderKey key)

/-- The outbound `*http.Request` built by `http.NewRequest(method, url, body)` and handed
to `client.Do`: method, URL, header map and body. -/
structure OutRequest where
  Method : GoString
  URL : GoString
  Header : Header
  Body : GoString
  deriving DecidableEq

/-- The upstream `*http.Response` returned by `client.Do`: `resp.StatusCode`,
`resp.Header` and the bytes read from `resp.Body`. -/
structure Response where
  StatusCode : Int
  Header : Header
  Body : GoString
  deriving DecidableEq

/-- The `http.ResponseWriter` of one request, as the record of what the handler does with
it: the header map `w.Header()`, the status code of the first `WriteHeader` (`none`
before it) and the bytes written.  What the server adds on the wire (`Date` and framing
headers) is outside the handler. -/
structure ResponseWriter where
  header : Header
  status : Option Int
  body : GoString
  deriving DecidableEq

/-- The function `checkWriteHeaderCode`: panics for a code below 100 or above 999. -/
def checkWriteHeaderCode (code : Int) : Except Panic Unit :=
  if code < 100 ∨ code > 999 then .error .invalidWriteHeaderCode else .ok ()

/-- The method `ResponseWriter.WriteHeader`: a call after the first one is ignored; the
first one checks the code with `checkWriteHeaderCode` and sets the status.  An
informational code (100 to 199 other than 101), which `client.Do` never returns, is not
treated apart. -/
def ResponseWriter.WriteHeader (w : ResponseWriter) (statusCode : Int) :
    Except Panic ResponseWriter :=
  match w.status with
  | some _ => .ok w
  | none =>
    match checkWriteHeaderCode statusCode with
    | .error p => .error p
    | .ok _ => .ok { w with status := some statusCode }

/-- The method `ResponseWriter.Write`: calls `WriteHeader(http.StatusOK)` when
`WriteHeader` has not been called yet, then writes the bytes. -/
def ResponseWriter.Write (w : ResponseWriter) (b : GoString) : Except Panic ResponseWriter :=
  match ResponseWriter.WriteHeader w 200 with
  | .error p => .error p
  | .ok w1 => .ok { w1 with body := w1.body ++ b }

/-- The function `http.Error(w, error, code)`: drops `Content-Length`, sets `Content-Type`
and `X-Content-Type-Options`, writes the status code and then the message followed by
a newline (`fmt.Fprintln(w, error)`). -/
def Error (w : ResponseWriter) (error : GoString) (code : Int) : Except Panic ResponseWriter :=
  let h := Header.Del w.header (bytes "Content-Length")
  let h := Header.Set h (bytes "Content-Type") (bytes "text/plain; charset=utf-8")
  let h := Header.Set h (bytes "X-Content-Type-Options") (bytes "nosniff")
  match ResponseWriter.WriteHeader { w with header := h } code with
  | .error p => .error p
  | .ok w1 => ResponseWriter.Write w1 (error ++ [10])

end http

/-! ## main.go: getClientIP -/

/-- The slice `headers` of `getClientIP`, in order of preference. -/
def headers : List GoString :=
  [bytes "CF-Connecting-IP", bytes "True-Client-IP", bytes "X-Real-IP", bytes "X-Forwarded-For"]

/-- The loop `for _, header := range headers` of `getClientIP`: `some` of the value (or
panic) the loop returns with, `none` when the loop ends without returning. -/
def getClientIP.loop (r : http.Request) : List GoString → Option (Except Panic GoString)
  | [] => none
  | header :: rest =>
    let value := http.Header.Get r.Header header
    if value ≠ [] then
      if header = bytes "X-Forwarded-For" then
        let parts := strings.Split value (bytes ",")
        some ((index parts 0).map strings.TrimSpace)
      else
        some (.ok (strings.TrimSpace value))
    else
      getClientIP.loop r rest

/-- The fall-back of `getClientIP` on `r.RemoteAddr` (strip the port if present). -/
def getClientIP.fallback (ip : GoString) : Except Panic GoString :=
  let idx := strings.LastIndex ip (bytes ":")
  if idx ≠ -1 then
    if strings.Contains ip (bytes "[") then
      let bracketIdx := strings.LastIndex ip (bytes "]")
      if bracketIdx ≠ -1 then
        slice ip 1 bracketIdx
      else
        .ok ip
    else
      slice ip 0 idx
  else
    .ok ip

/-- The function `getClientIP` of `main.go`. -/
def getClientIP (r : http.Request) : Except Panic GoString :=
  match getClientIP.loop r headers with
  | some res => res
  | none => getClientIP.fallback r.RemoteAddr

/-! ## main.go: the handler registered on "/" -/

/-- What the handler closes over and calls outside the program: `target.String()`, whether
`http.NewRequest(method, url, body)` returns an error for a method and a URL (decided
by `net/http` and `net/url`), and `client.Do`, which returns the upstream response or
an error (`none`). -/
structure Env where
  target : GoString
  newRequestErr : GoString → GoString → Bool
  Do : http.OutRequest → Option http.Response

/-- The loop `for _, value := range values { dst.Add(key, value) }`. -/
def copyValues (dst : http.Header) (key : GoString) (values : List GoString) : http.Header :=
  values.foldl (fun acc value => http.Header.Add acc key value) dst

/-- The loop `for key, values := range src { for _, value := range values
{ dst.Add(key, value) } }`, which the handler runs on the request headers and on the
response headers. -/
def copyHeaders (dst src : http.Header) : http.Header :=
  src.foldl (fun acc e => copyValues acc e.1 e.2) dst

/-- The request `targetReq` the handler hands to `client.Do`: built by `http.NewRequest`
(empty header map), then the copy of the inbound headers, then
`targetReq.Header.Set("X-MGM-Client-IP", clientIP)`. -/
def targetReq (env : Env) (r : http.Request) (clientIP : GoString) : http.OutRequest :=
  let t : http.OutRequest :=
    { Method := r.Method, URL := env.target ++ r.RequestURI, Header := [], Body := r.Body }
  let t := { t with Header := copyHeaders t.Header r.Header }
  { t with Header := http.Header.Set t.Header (bytes "X-MGM-Client-IP") clientIP }

/-- The result of one run of the handler: the requests handed to `client.Do`, in order,
and the `ResponseWriter` when the handler returns, or the panic that ends the run. -/
structure Outcome where
  sent : List http.OutRequest
  w : Except Panic http.ResponseWriter
  deriving DecidableEq

/-- The handler function of `main`, run on a fresh `ResponseWriter`.  A panic of
`getClientIP` or of `w.WriteHeader` ends the run. -/
def handler (env : Env) (r : http.Request) : Outcome :=
  let w : http.ResponseWriter := { header := [], status := none, body := [] }
  if r.Path = bytes "/health" then
    { sent := [],
      w := match http.ResponseWriter.WriteHeader w 200 with
           | .error p => .error p
           | .ok w1 => http.ResponseWriter.Write w1 (bytes "ok") }
  else
    match getClientIP r with
    | .error p => { sent := [], w := .error p }
    | .ok clientIP =>
      if env.newRequestErr r.Method (env.target ++ r.RequestURI) then
        { sent := [], w := http.Error w (bytes "Failed to create request") 500 }
      else
        let t := targetReq env r clientIP
        match env.Do t with
        | none =>
          { sent := [t], w := http.Error w (bytes "Failed to reach upstream") 502 }
        | some resp =>
          { sent := [t],
            w := match http.ResponseWriter.WriteHeader
                    { w with header := copyHeaders w.header resp.Header } resp.StatusCode with
                 | .error p => .error p
                 | .ok w1 => http.ResponseWriter.Write w1 resp.Body }

/-! ## Definitions used to state and prove the properties -/

/-- The body of `DecodeRuneInString` as a function of `len(s)` and of the bytes `s[0]`,
`s[1]`, `s[2]`, `s[3]`. -/
def decodeCore (n s0 s1 s2 s3 : Nat) : Nat × Nat :=
  if n < 1 then (utf8.RuneError, 0) else
  if s0 < 0x80 then (s0, 1) else
  match utf8.first s0 with
  | none => (utf8.RuneError, 1)
  | some (sz, lo, hi) =>
    if n < sz then (utf8.RuneError, 1) else
    if s1 < lo ∨ hi < s1 then (utf8.RuneError, 1) else
    if sz ≤ 2 then ((s0 % 32) * 64 + s1 % 64, 2) else
    if s2 < 0x80 ∨ 0xBF < s2 then (utf8.RuneError, 1) else
    if sz ≤ 3 then ((s0 % 16) * 4096 + (s1 % 64) * 64 + s2 % 64, 3) else
    if s3 < 0x80 ∨ 0xBF < s3 then (utf8.RuneError, 1) else
    ((s0 % 8) * 262144 + (s1 % 64) * 4096 + (s2 % 64) * 64 + s3 % 64, 4)

/-- A string made of UTF-8 encoded white-space runes only. -/
def IsSpaceOnly (s : GoString) : Prop :=
  ∃ runes : List GoString, s = runes.flatten ∧
    ∀ x ∈ runes, unicode.IsSpace (utf8.DecodeRuneInString x).1 = true ∧
      (utf8.DecodeRuneInString x).2 = x.length

/-- The keys of a header map, in the order of its entries. -/
def keys (h : http.Header) : List GoString := h.map (·.1)

/-- The values that the entries of `src` whose key has canonical form `k` carry, in the
order of the entries. -/
def gather : http.Header → GoString → List GoString
  | [], _ => []
  | (k1, v1) :: t, k =>
    if textproto.CanonicalMIMEHeaderKey k1 = k then v1 ++ gather t k else gather t k

/-- A header map as `net/http` builds it, from the wire or through `Add` and `Set`: no
key twice (it is a map) and every key in canonical form. -/
def WellFormed (h : http.Header) : Prop :=
  (keys h).Nodup ∧ ∀ k ∈ keys h, textproto.CanonicalMIMEHeaderKey k = k

instance (h : http.Header) : Decidable (WellFormed h) := by
  unfold WellFormed
  infer_instance

/-- The byte that `canonLoop` writes for the byte `c`. -/
def canonByte (upper : Bool) (c : Nat) : Nat :=
  if upper ∧ 97 ≤ c ∧ c ≤ 122 then c - 32
  else if ¬ upper ∧ 65 ≤ c ∧ c ≤ 90 then c + 32 else c

/-! ### Sample requests and environments -/

/-- A `GET /` request with the given headers and peer address. -/
def sampleRequest (h : http.Header) (remoteAddr : GoString) : http.Request :=
  ⟨bytes "GET", bytes "/", bytes "/", h, [], remoteAddr⟩

/-- `True-Client-IP: " 1.2.3.4 "` and `X-Forwarded-For: "5.6.7.8"`. -/
def trueClientRequest : http.Request :=
  sampleRequest [(bytes "True-Client-Ip", [bytes " 1.2.3.4 "]),
    (bytes "X-Forwarded-For", [bytes "5.6.7.8"])] (bytes "9.9.9.9:1")

/-- The same `True-Client-IP` value, other lower-precedence header and peer address. -/
def trueClientRequest2 : http.Request :=
  sampleRequest [(bytes "True-Client-Ip", [bytes " 1.2.3.4 "]),
    (bytes "X-Real-Ip", [bytes "7.7.7.7"])] (bytes "[::1]:2")

/-- `X-Forwarded-For: "  1.2.3.4  ,  5.6.7.8  "`. -/
def forwardedRequest : http.Request :=
  sampleRequest [(bytes "X-Forwarded-For", [bytes "  1.2.3.4  ,  5.6.7.8  "])]
    (bytes "9.9.9.9:1")

/-- `X-Forwarded-For: " , 5.6.7.8"`, whose first entry is a single space. -/
def blankFirstRequest : http.Request :=
  sampleRequest [(bytes "X-Forwarded-For", [bytes " , 5.6.7.8"])] (bytes "9.9.9.9:1")

/-- No header, peer address `192.168.1.1:12345`. -/
def ipv4PeerRequest : http.Request := sampleRequest [] (bytes "192.168.1.1:12345")

/-- No header, peer address `[::1]:12345`. -/
def ipv6PeerRequest : http.Request := sampleRequest [] (bytes "[::1]:12345")

/-- No header, peer address `localhost`. -/
def noPortRequest : http.Request := sampleRequest [] (bytes "localhost")

/-- No header, peer address ` 10.0.0.1:80`, with a leading space. -/
def paddedPeerRequest : http.Request := sampleRequest [] (bytes " 10.0.0.1:80")

/-- `CF-Connecting-IP: "  1.2.3.4  "`. -/
def cloudflareRequest : http.Request :=
  sampleRequest [(bytes "Cf-Connecting-Ip", [bytes "  1.2.3.4  "])] (bytes "9.9.9.9:1")

/-- No header, peer address `]:[`. -/
def bracketFirstRequest : http.Request := sampleRequest [] (bytes "]:[")

/-- `POST /v1/events` with `X-Forwarded-For`, two inbound values of `X-Mgm-Client-Ip`
and two values of `Accept`. -/
def eventsRequest : http.Request :=
  ⟨bytes "POST", bytes "/v1/events", bytes "/v1/events?x=1",
    [(bytes "X-Forwarded-For", [bytes "198.51.100.25, 10.0.0.1"]),
     (bytes "X-Mgm-Client-Ip", [bytes "6.6.6.6", bytes "7.7.7.7"]),
     (bytes "Accept", [bytes "text/html", bytes "text/plain"])],
    bytes "[]", bytes "192.0.2.7:4711"⟩

/-- An upstream response with status 404, two `Set-Cookie` values and a body. -/
def notFoundResponse : http.Response :=
  ⟨404, [(bytes "Content-Type", [bytes "text/plain"]),
    (bytes "Set-Cookie", [bytes "a=1", bytes "b=2"])], bytes "no such event"⟩

/-- An environment whose upstream answers every request with `notFoundResponse`. -/
def upstreamEnv : Env := ⟨bytes "http://upstream", fun _ _ => false, fun _ => some notFoundResponse⟩

/-- An environment whose upstream answers every request with the status line `099` and
the body `weird`. -/
def invalidStatusEnv : Env :=
  ⟨bytes "http://upstream", fun _ _ => false, fun _ => some ⟨99, [], bytes "weird"⟩⟩

/-- An environment whose upstream cannot be reached. -/
def unreachableEnv : Env := ⟨bytes "http://upstream", fun _ _ => false, fun _ => none⟩

/-! ## Facts about the string functions -/

theorem single_ne_nil (c : Nat) : ([c] : GoString) ≠ [] := by simp

theorem indexOf?_single_none (c : Nat) (s : GoString) (h : c ∉ s) :
    strings.indexOf? [c] s = none := by
  induction s with
  | nil => simp [strings.indexOf?]
  | cons a t ih =>
    simp only [List.mem_cons, not_or] at h
    simp [strings.indexOf?, List.isPrefixOf, h.1, ih h.2]

theorem indexOf?_single_mem (c : Nat) (s : GoString) (h : c ∈ s) :
    strings.indexOf? [c] s = some (s.takeWhile (· ≠ c)).length := by
  induction s with
  | nil => simp at h
  | cons a t ih =>
    by_cases hca : c = a
    · subst hca
      simp [strings.indexOf?, List.isPrefixOf, List.takeWhile]
    · have ht : c ∈ t := by
        rcases List.mem_cons.1 h with h1 | h1
        · exact absurd h1 hca
        · exact h1
      have hac : a ≠ c := fun e => hca e.symm
      simp [strings.indexOf?, List.isPrefixOf, hca, ih ht, List.takeWhile, hac]

theorem lastIndexOf?_single_none (c : Nat) (s : GoString) (h : c ∉ s) :
    strings.lastIndexOf? [c] s = none := by
  induction s with
  | nil => simp [strings.lastIndexOf?]
  | cons a t ih =>
    simp only [List.mem_cons, not_or] at h
    simp [strings.lastIndexOf?, List.isPrefixOf, h.1, ih h.2]

theorem lastIndexOf?_single_append (c : Nat) (host port : GoString) (h : c ∉ port) :
    strings.lastIndexOf? [c] (host ++ c :: port) = some host.length := by
  induction host with
  | nil => simp [strings.lastIndexOf?, lastIndexOf?_single_none c port h, List.isPrefixOf]
  | cons a t ih => simp [strings.lastIndexOf?, ih]

theorem LastIndex_single_append (c : Nat) (host port : GoString) (h : c ∉ port) :
    strings.LastIndex (host ++ c :: port) [c] = (host.length : Int) := by
  simp [strings.LastIndex, lastIndexOf?_single_append c host port h]

theorem LastIndex_single_none (c : Nat) (s : GoString) (h : c ∉ s) :
    strings.LastIndex s [c] = -1 := by
  simp [strings.LastIndex, lastIndexOf?_single_none c s h]

theorem Contains_single (c : Nat) (s : GoString) :
    strings.Contains s [c] = decide (c ∈ s) := by
  by_cases h : c ∈ s
  · simp [strings.Contains, strings.Index, indexOf?_single_mem c s h, h]
  · simp [strings.Contains, strings.Index, indexOf?_single_none c s h, h]

theorem mem_split_last (c : Nat) (s : GoString) (h : c ∈ s) :
    ∃ host port, s = host ++ c :: port ∧ c ∉ port := by
  induction s with
  | nil => simp at h
  | cons a t ih =>
    by_cases ht : c ∈ t
    · obtain ⟨host, port, e, hp⟩ := ih ht
      exact ⟨a :: host, port, by simp [e], hp⟩
    · have hca : c = a := by
        rcases List.mem_cons.1 h with h1 | h1
        · exact h1
        · exact absurd h1 ht
      exact ⟨[], t, by simp [hca], ht⟩

theorem slice_take (host rest : GoString) :
    slice (host ++ rest) 0 (host.length : Int) = .ok host := by
  simp [slice]

theorem bytes_colon : bytes ":" = [58] := rfl
theorem bytes_lbracket : bytes "[" = [91] := rfl
theorem bytes_rbracket : bytes "]" = [93] := rfl
theorem bytes_comma : bytes "," = [44] := rfl

/-! ## getClientIP: the header loop -/

theorem loop_none (r : http.Request) (hs : List GoString)
    (h : ∀ x ∈ hs, http.Header.Get r.Header x = []) : getClientIP.loop r hs = none := by
  induction hs with
  | nil => rfl
  | cons a t ih =>
    have ha : http.Header.Get r.Header a = [] := h a (List.mem_cons_self a t)
    have ht : ∀ x ∈ t, http.Header.Get r.Header x = [] :=
      fun x hx => h x (List.mem_cons_of_mem a hx)
    simp [getClientIP.loop, ha, ih ht]

theorem loop_skip (r : http.Request) (pre rest : List GoString)
    (h : ∀ x ∈ pre, http.Header.Get r.Header x = []) :
    getClientIP.loop r (pre ++ rest) = getClientIP.loop r rest := by
  induction pre with
  | nil => rfl
  | cons a t ih =>
    have ha : http.Header.Get r.Header a = [] := h a (List.mem_cons_self a t)
    have ht : ∀ x ∈ t, http.Header.Get r.Header x = [] :=
      fun x hx => h x (List.mem_cons_of_mem a hx)
    simp [getClientIP.loop, ha, ih ht]

theorem getClientIP_fallback (r : http.Request)
    (h : ∀ x ∈ headers, http.Header.Get r.Header x = []) :
    getClientIP r = getClientIP.fallback r.RemoteAddr := by
  simp [getClientIP, loop_none r headers h]

theorem fallback_hostport (host port : GoString) (h1 : 91 ∉ host) (h2 : 91 ∉ port)
    (h3 : 58 ∉ port) : getClientIP.fallback (host ++ bytes ":" ++ port) = .ok host := by
  have hc : (91 : Nat) ∉ host ++ 58 :: port := by simp [h1, h2]
  have e : host ++ bytes ":" ++ port = host ++ 58 :: port := by simp [bytes_colon]
  rw [e]
  simp only [getClientIP.fallback, bytes_colon, bytes_lbracket, bytes_rbracket,
    LastIndex_single_append 58 host port h3, Contains_single, hc]
  have hne : ((host.length : Int) ≠ -1) := by omega
  simp [hne, slice_take]

theorem fallback_bracket (addr port : GoString) (h : 93 ∉ port) :
    getClientIP.fallback (bytes "[" ++ addr ++ bytes "]:" ++ port) = .ok addr := by
  have e : bytes "[" ++ addr ++ bytes "]:" ++ port = (91 :: addr) ++ 93 :: (58 :: port) := by
    have : bytes "]:" = [93, 58] := rfl
    simp [bytes_lbracket, this]
  have h93 : (93 : Nat) ∉ (58 :: port) := by simp [h]
  obtain ⟨hh, pp, e2, hp⟩ := mem_split_last 58 ((91 :: addr) ++ 93 :: (58 :: port)) (by simp)
  have hidx : strings.LastIndex ((91 :: addr) ++ 93 :: (58 :: port)) [58] ≠ -1 := by
    rw [e2, LastIndex_single_append 58 hh pp hp]; omega
  rw [e]
  simp only [getClientIP.fallback, bytes_colon, bytes_lbracket, bytes_rbracket, Contains_single]
  rw [if_pos hidx, LastIndex_single_append 93 (91 :: addr) (58 :: port) h93]
  have hne : ¬ ((addr.length : Int) + 1 = -1) := by omega
  have hpos : (0 : Int) ≤ (port.length : Int) + 1 + 1 := by omega
  simp [slice, hne, hpos]

theorem fallback_nocolon (ip : GoString) (h : 58 ∉ ip) : getClientIP.fallback ip = .ok ip := by
  simp [getClientIP.fallback, bytes_colon, LastIndex_single_none 58 ip h]


/-! ## strings.Split: the first piece -/

theorem take_takeWhile_length (p : Nat → Bool) (l : GoString) :
    l.take (l.takeWhile p).length = l.takeWhile p := by
  induction l with
  | nil => simp
  | cons a t ih =>
    by_cases h : p a = true
    · simp [List.takeWhile, h, ih]
    · simp [List.takeWhile, h]

theorem takeWhile_ne_self (c : Nat) (v : GoString) (h : c ∉ v) :
    v.takeWhile (· ≠ c) = v := by
  induction v with
  | nil => simp
  | cons a t ih =>
    simp only [List.mem_cons, not_or] at h
    have hac : a ≠ c := fun e => h.1 e.symm
    have e : List.takeWhile (fun x => decide (x ≠ c)) (a :: t)
        = a :: List.takeWhile (fun x => decide (x ≠ c)) t := by
      simp [List.takeWhile, hac]
    rw [e, ih h.2]

theorem genSplitLoop_head (c : Nat) (n : Nat) (v : GoString) (hn : c ∈ v → 0 < n) :
    index (strings.genSplitLoop [c] n v) 0 = .ok (v.takeWhile (· ≠ c)) := by
  by_cases h : c ∈ v
  · obtain ⟨m, rfl⟩ : ∃ m, n = m + 1 := ⟨n - 1, by have := hn h; omega⟩
    have e := take_takeWhile_length (· ≠ c) v
    simp only [strings.genSplitLoop, indexOf?_single_mem c v h, index, List.get?_cons_zero, e]
  · have htw := takeWhile_ne_self c v h
    cases n with
    | zero => simp only [strings.genSplitLoop, index, List.get?_cons_zero, htw]
    | succ m =>
      simp only [strings.genSplitLoop, indexOf?_single_none c v h, index,
        List.get?_cons_zero, htw]

theorem Count_single_pos (c : Nat) (v : GoString) (h : c ∈ v) : 0 < strings.Count v [c] := by
  cases v with
  | nil => simp at h
  | cons a t =>
    simp only [strings.Count, List.length_cons]
    rw [if_neg (by simp)]
    rw [strings.countLoop, indexOf?_single_mem c (a :: t) h]
    simp

theorem Split_single_head (c : Nat) (v : GoString) :
    index (strings.Split v [c]) 0 = .ok (v.takeWhile (· ≠ c)) := by
  simp only [strings.Split]
  rw [if_neg (by simp)]
  exact genSplitLoop_head c _ v (Count_single_pos c v)

/-! ## strings.TrimLeftFunc and strings.TrimRightFunc -/

theorem trimLeftLoop_drop (f : Nat → Bool) (k : Nat) (s : GoString) :
    strings.trimLeftLoop f k s = strings.trimLeftLoop f 0 (s.drop k) := by
  induction k generalizing s with
  | zero => simp
  | succ k ih =>
    cases s with
    | nil => simp [strings.trimLeftLoop]
    | cons a t => simp [strings.trimLeftLoop, ih t]

theorem trimLeftLoop_spec (f : Nat → Bool) (k : Nat) (s : GoString) :
    strings.trimLeftLoop f k s = [] ∨
      f (utf8.DecodeRuneInString (strings.trimLeftLoop f k s)).1 = false := by
  induction s generalizing k with
  | nil => left; simp [strings.trimLeftLoop]
  | cons a t ih =>
    cases k with
    | succ k => simpa [strings.trimLeftLoop] using ih k
    | zero =>
      simp only [strings.trimLeftLoop]
      by_cases hf : f (utf8.DecodeRuneInString (a :: t)).1 = true
      · simpa [hf] using ih _
      · right
        simp only [hf]
        simpa using hf

theorem trimLeftLoop_fix (f : Nat → Bool) (s : GoString)
    (h : s = [] ∨ f (utf8.DecodeRuneInString s).1 = false) : strings.trimLeftLoop f 0 s = s := by
  cases s with
  | nil => simp [strings.trimLeftLoop]
  | cons a t =>
    rcases h with h | h
    · simp at h
    · simp [strings.trimLeftLoop, h]

theorem trimRightLoop_pos (f : Nat → Bool) (a : Nat) (t : GoString)
    (hf : f (utf8.DecodeLastRuneInString (a :: t).reverse).1 = true) :
    strings.trimRightLoop f 0 (a :: t) =
      strings.trimRightLoop f ((utf8.DecodeLastRuneInString (a :: t).reverse).2 - 1) t := by
  simp only [strings.trimRightLoop, hf, if_true]

theorem trimRightLoop_neg (f : Nat → Bool) (a : Nat) (t : GoString)
    (hf : f (utf8.DecodeLastRuneInString (a :: t).reverse).1 = false) :
    strings.trimRightLoop f 0 (a :: t) = a :: t := by
  simp only [strings.trimRightLoop, hf]
  rfl

theorem trimRightLoop_spec (f : Nat → Bool) (k : Nat) (s : GoString) :
    strings.trimRightLoop f k s = [] ∨
      f (utf8.DecodeLastRuneInString (strings.trimRightLoop f k s).reverse).1 = false := by
  induction s generalizing k with
  | nil => left; simp [strings.trimRightLoop]
  | cons a t ih =>
    cases k with
    | succ k => simpa [strings.trimRightLoop] using ih k
    | zero =>
      cases hf : f (utf8.DecodeLastRuneInString (a :: t).reverse).1 with
      | true => rw [trimRightLoop_pos f a t hf]; exact ih _
      | false => rw [trimRightLoop_neg f a t hf]; exact Or.inr hf

theorem trimRightLoop_fix (f : Nat → Bool) (s : GoString)
    (h : s = [] ∨ f (utf8.DecodeLastRuneInString s.reverse).1 = false) :
    strings.trimRightLoop f 0 s = s := by
  cases s with
  | nil => simp [strings.trimRightLoop]
  | cons a t =>
    rcases h with h | h
    · simp at h
    · exact trimRightLoop_neg f a t h

theorem trimRightLoop_drop (f : Nat → Bool) (k : Nat) (s : GoString) :
    ∃ n, strings.trimRightLoop f k s = s.drop n := by
  induction s generalizing k with
  | nil => exact ⟨0, by simp [strings.trimRightLoop]⟩
  | cons a t ih =>
    cases k with
    | succ k =>
      obtain ⟨n, hn⟩ := ih k
      exact ⟨n + 1, by simp [strings.trimRightLoop, hn]⟩
    | zero =>
      cases hf : f (utf8.DecodeLastRuneInString (a :: t).reverse).1 with
      | true =>
        obtain ⟨n, hn⟩ := ih ((utf8.DecodeLastRuneInString (a :: t).reverse).2 - 1)
        exact ⟨n + 1, by rw [trimRightLoop_pos f a t hf, hn]; rfl⟩
      | false => exact ⟨0, by rw [trimRightLoop_neg f a t hf]; rfl⟩

theorem TrimRightFunc_take (f : Nat → Bool) (s : GoString) :
    ∃ n, strings.TrimRightFunc s f = s.take n := by
  obtain ⟨n, hn⟩ := trimRightLoop_drop f 0 s.reverse
  refine ⟨s.length - n, ?_⟩
  simp [strings.TrimRightFunc, hn, List.reverse_drop]

theorem TrimRightFunc_idem (f : Nat → Bool) (s : GoString) :
    strings.TrimRightFunc (strings.TrimRightFunc s f) f = strings.TrimRightFunc s f := by
  simp only [strings.TrimRightFunc, List.reverse_reverse]
  rw [trimRightLoop_fix f _ (trimRightLoop_spec f 0 s.reverse)]

/-! ## utf8.DecodeRuneInString on a truncated string -/

theorem first_size (b sz lo hi : Nat) (h : utf8.first b = some (sz, lo, hi)) :
    sz = 2 ∨ sz = 3 ∨ sz = 4 := by
  unfold utf8.first at h
  split_ifs at h <;> simp at h <;> omega

theorem IsSpace_RuneError : unicode.IsSpace utf8.RuneError = false := by decide

theorem decode_eq_core (s : GoString) :
    utf8.DecodeRuneInString s =
      decodeCore s.length (s.getD 0 0) (s.getD 1 0) (s.getD 2 0) (s.getD 3 0) := rfl

theorem decodeCore_trunc (k n s0 s1 s2 s3 t1 t2 t3 : Nat) (hk : k ≤ n)
    (h1 : 1 < k → t1 = s1) (h2 : 2 < k → t2 = s2) (h3 : 3 < k → t3 = s3) :
    decodeCore k s0 t1 t2 t3 = decodeCore n s0 s1 s2 s3 ∨
      (decodeCore k s0 t1 t2 t3).1 = utf8.RuneError := by
  unfold decodeCore
  by_cases hk0 : k < 1
  · right; simp [hk0]
  have hn0 : ¬ n < 1 := by omega
  rw [if_neg hk0, if_neg hn0]
  by_cases ha : s0 < 0x80
  · left; rw [if_pos ha, if_pos ha]
  rw [if_neg ha, if_neg ha]
  cases hf : utf8.first s0 with
  | none => left; rfl
  | some x =>
    obtain ⟨sz, lo, hi⟩ := x
    simp only []
    by_cases hks : k < sz
    · right; rw [if_pos hks]
    have hns : ¬ n < sz := by omega
    rw [if_neg hks, if_neg hns]
    have hsz := first_size s0 sz lo hi hf
    have e1 : t1 = s1 := h1 (by omega)
    subst e1
    by_cases hb : t1 < lo ∨ hi < t1
    · left; rw [if_pos hb, if_pos hb]
    rw [if_neg hb, if_neg hb]
    by_cases h2s : sz ≤ 2
    · left; rw [if_pos h2s, if_pos h2s]
    rw [if_neg h2s, if_neg h2s]
    have e2 : t2 = s2 := h2 (by omega)
    subst e2
    by_cases hc : t2 < 0x80 ∨ 0xBF < t2
    · left; rw [if_pos hc, if_pos hc]
    rw [if_neg hc, if_neg hc]
    by_cases h3s : sz ≤ 3
    · left; rw [if_pos h3s, if_pos h3s]
    rw [if_neg h3s, if_neg h3s]
    have e3 : t3 = s3 := h3 (by omega)
    subst e3
    left; rfl

theorem getD_take (u : GoString) (k i : Nat) (h : i < k) :
    (u.take k).getD i 0 = u.getD i 0 := by
  simp [List.getD_eq_getElem?_getD, List.getElem?_take, h]

theorem decode_take (u : GoString) (k : Nat) :
    utf8.DecodeRuneInString (u.take k) = utf8.DecodeRuneInString u ∨
      (utf8.DecodeRuneInString (u.take k)).1 = utf8.RuneError := by
  rw [decode_eq_core, decode_eq_core]
  by_cases hk : k ≤ u.length
  · have hl : (u.take k).length = k := by simp [hk]
    rw [hl]
    by_cases hk0 : k = 0
    · right; subst hk0; rfl
    rw [getD_take u k 0 (by omega)]
    exact decodeCore_trunc k u.length _ _ _ _ _ _ _ hk (getD_take u k 1) (getD_take u k 2)
      (getD_take u k 3)
  · have e : u.take k = u := List.take_of_length_le (by omega)
    rw [e]
    exact Or.inl rfl

theorem decode_take_space (u : GoString) (k : Nat)
    (h : unicode.IsSpace (utf8.DecodeRuneInString (u.take k)).1 = true) :
    utf8.DecodeRuneInString (u.take k) = utf8.DecodeRuneInString u := by
  rcases decode_take u k with e | e
  · exact e
  · rw [e, IsSpace_RuneError] at h
    exact absurd h (by simp)

/-! ## strings.TrimSpace -/

theorem TrimSpace_idem (s : GoString) :
    strings.TrimSpace (strings.TrimSpace s) = strings.TrimSpace s := by
  unfold strings.TrimSpace strings.TrimFunc
  obtain ⟨n, hn⟩ := TrimRightFunc_take unicode.IsSpace (strings.TrimLeftFunc s unicode.IsSpace)
  have hleft : strings.TrimLeftFunc
      (strings.TrimRightFunc (strings.TrimLeftFunc s unicode.IsSpace) unicode.IsSpace)
      unicode.IsSpace
      = strings.TrimRightFunc (strings.TrimLeftFunc s unicode.IsSpace) unicode.IsSpace := by
    apply trimLeftLoop_fix
    by_cases hnil : strings.TrimRightFunc (strings.TrimLeftFunc s unicode.IsSpace)
        unicode.IsSpace = []
    · exact Or.inl hnil
    right
    rw [hn]
    cases hsp : unicode.IsSpace (utf8.DecodeRuneInString
        ((strings.TrimLeftFunc s unicode.IsSpace).take n)).1 with
    | false => rfl
    | true =>
      have e := decode_take_space _ n hsp
      rw [e] at hsp
      rcases trimLeftLoop_spec unicode.IsSpace 0 s with h0 | h0
      · have : strings.TrimLeftFunc s unicode.IsSpace = [] := h0
        rw [this] at hnil hn
        simp [hn] at hnil
      · have : unicode.IsSpace
            (utf8.DecodeRuneInString (strings.TrimLeftFunc s unicode.IsSpace)).1 = false := h0
        rw [this] at hsp
        exact absurd hsp (by simp)
  rw [hleft, TrimRightFunc_idem]

theorem trimLeftLoop_space_rune (x rest : GoString)
    (hs : unicode.IsSpace (utf8.DecodeRuneInString x).1 = true)
    (hl : (utf8.DecodeRuneInString x).2 = x.length) :
    strings.trimLeftLoop unicode.IsSpace 0 (x ++ rest) =
      strings.trimLeftLoop unicode.IsSpace 0 rest := by
  cases x with
  | nil => rfl
  | cons c t =>
    have htake : ((c :: t) ++ rest).take (c :: t).length = c :: t := by simp
    have hd := decode_take_space ((c :: t) ++ rest) (c :: t).length (by rw [htake]; exact hs)
    rw [htake] at hd
    have hs2 : unicode.IsSpace (utf8.DecodeRuneInString (c :: (t ++ rest))).1 = true := by
      have : (c :: t) ++ rest = c :: (t ++ rest) := rfl
      rw [← this, ← hd]; exact hs
    have hsz : (utf8.DecodeRuneInString (c :: (t ++ rest))).2 = t.length + 1 := by
      have : (c :: t) ++ rest = c :: (t ++ rest) := rfl
      rw [← this, ← hd, hl]; rfl
    have step : strings.trimLeftLoop unicode.IsSpace 0 (c :: (t ++ rest)) =
        strings.trimLeftLoop unicode.IsSpace
          ((utf8.DecodeRuneInString (c :: (t ++ rest))).2 - 1) (t ++ rest) := by
      simp only [strings.trimLeftLoop, hs2, if_true]
    show strings.trimLeftLoop unicode.IsSpace 0 (c :: (t ++ rest)) = _
    rw [step, hsz, trimLeftLoop_drop]
    simp

theorem TrimSpace_spaceOnly (s : GoString) (h : IsSpaceOnly s) : strings.TrimSpace s = [] := by
  obtain ⟨runes, rfl, hr⟩ := h
  have key : ∀ rs : List GoString,
      (∀ x ∈ rs, unicode.IsSpace (utf8.DecodeRuneInString x).1 = true ∧
        (utf8.DecodeRuneInString x).2 = x.length) →
      strings.trimLeftLoop unicode.IsSpace 0 rs.flatten = [] := by
    intro rs
    induction rs with
    | nil => intro _; rfl
    | cons x xs ih =>
      intro hx
      have h1 := hx x (List.mem_cons_self x xs)
      rw [List.flatten_cons, trimLeftLoop_space_rune x xs.flatten h1.1 h1.2]
      exact ih (fun y hy => hx y (List.mem_cons_of_mem x hy))
  simp [strings.TrimSpace, strings.TrimFunc, strings.TrimLeftFunc, key runes hr,
    strings.TrimRightFunc, strings.trimRightLoop]

theorem takeWhile_ne_append (c : Nat) (seg rest : GoString) (h : c ∉ seg) :
    (seg ++ c :: rest).takeWhile (· ≠ c) = seg := by
  induction seg with
  | nil => simp [List.takeWhile]
  | cons a t ih =>
    simp only [List.mem_cons, not_or] at h
    have hac : a ≠ c := fun e => h.1 e.symm
    have e : List.takeWhile (fun x => decide (x ≠ c)) (a :: t ++ c :: rest)
        = a :: List.takeWhile (fun x => decide (x ≠ c)) (t ++ c :: rest) := by
      simp [List.takeWhile, hac]
    rw [e, ih h.2]

theorem loop_hit (r : http.Request) (H : GoString) (post : List GoString)
    (hH : http.Header.Get r.Header H ≠ []) :
    getClientIP.loop r (H :: post) = some
      (if H = bytes "X-Forwarded-For" then
        (index (strings.Split (http.Header.Get r.Header H) (bytes ",")) 0).map strings.TrimSpace
       else .ok (strings.TrimSpace (http.Header.Get r.Header H))) := by
  simp only [getClientIP.loop, hH, ne_eq, not_false_eq_true, if_true]
  split_ifs <;> rfl

theorem getClientIP_hit (r : http.Request) (pre post : List GoString) (H : GoString)
    (hsplit : headers = pre ++ H :: post)
    (hhigher : ∀ x ∈ pre, http.Header.Get r.Header x = [])
    (hH : http.Header.Get r.Header H ≠ []) :
    getClientIP r =
      (if H = bytes "X-Forwarded-For" then
        (index (strings.Split (http.Header.Get r.Header H) (bytes ",")) 0).map strings.TrimSpace
       else .ok (strings.TrimSpace (http.Header.Get r.Header H))) := by
  simp only [getClientIP, hsplit, loop_skip r pre (H :: post) hhigher, loop_hit r H post hH]

theorem getClientIP_xff (r : http.Request)
    (h1 : http.Header.Get r.Header (bytes "CF-Connecting-IP") = [])
    (h2 : http.Header.Get r.Header (bytes "True-Client-IP") = [])
    (h3 : http.Header.Get r.Header (bytes "X-Real-IP") = [])
    (hne : http.Header.Get r.Header (bytes "X-Forwarded-For") ≠ []) :
    getClientIP r = .ok (strings.TrimSpace
      ((http.Header.Get r.Header (bytes "X-Forwarded-For")).takeWhile (· ≠ 44))) := by
  have hpre : ∀ x ∈ [bytes "CF-Connecting-IP", bytes "True-Client-IP", bytes "X-Real-IP"],
      http.Header.Get r.Header x = [] := by
    intro x hx
    simp only [List.mem_cons, List.mem_singleton, List.not_mem_nil, or_false] at hx
    rcases hx with rfl | rfl | rfl
    · exact h1
    · exact h2
    · exact h3
  rw [getClientIP_hit r [bytes "CF-Connecting-IP", bytes "True-Client-IP", bytes "X-Real-IP"] []
    (bytes "X-Forwarded-For") rfl hpre hne, if_pos rfl, bytes_comma,
    Split_single_head]
  rfl

theorem getClientIP_plain (r : http.Request) (pre post : List GoString) (H : GoString)
    (hsplit : headers = pre ++ H :: post)
    (hhigher : ∀ x ∈ pre, http.Header.Get r.Header x = [])
    (hH : http.Header.Get r.Header H ≠ []) (hx : H ≠ bytes "X-Forwarded-For") :
    getClientIP r = .ok (strings.TrimSpace (http.Header.Get r.Header H)) := by
  rw [getClientIP_hit r pre post H hsplit hhigher hH, if_neg hx]

/-- Claim C1: when the header `H` of the list `headers` has a non-empty value and every
header before it in the list (higher precedence) is absent or empty, `getClientIP`
returns the whitespace-trimmed value of `H` if `H` is one of the first three headers, and
every other request with the same value of `H` and no non-empty higher-precedence header
gets the same result, whatever its lower-precedence headers and its peer address. -/
theorem getClientIP_precedence (r : http.Request) (pre post : List GoString) (H : GoString)
    (hsplit : headers = pre ++ H :: post)
    (hhigher : ∀ x ∈ pre, http.Header.Get r.Header x = [])
    (hH : http.Header.Get r.Header H ≠ []) :
    (H ≠ bytes "X-Forwarded-For" →
      getClientIP r = .ok (strings.TrimSpace (http.Header.Get r.Header H))) ∧
    (∀ r2 : http.Request, (∀ x ∈ pre, http.Header.Get r2.Header x = []) →
      http.Header.Get r2.Header H = http.Header.Get r.Header H →
      getClientIP r2 = getClientIP r) := by
  refine ⟨?_, ?_⟩
  · intro hx
    exact getClientIP_plain r pre post H hsplit hhigher hH hx
  · intro r2 hpre2 hv2
    have hH2 : http.Header.Get r2.Header H ≠ [] := by rw [hv2]; exact hH
    rw [getClientIP_hit r pre post H hsplit hhigher hH,
      getClientIP_hit r2 pre post H hsplit hpre2 hH2, hv2]

/-- Claim C2: when `CF-Connecting-IP`, `True-Client-IP` and `X-Real-IP` are absent or
empty and `X-Forwarded-For` has the non-empty value `v`, `getClientIP` returns the
whitespace-trimmed text of `v` before its first comma (byte 44): the trimmed first
segment whatever follows the comma, all of `v` trimmed when it has no comma, and the
empty string when the first segment is empty or made of white space only. -/
theorem getClientIP_forwarded_for_first (r : http.Request) (v : GoString)
    (h1 : http.Header.Get r.Header (bytes "CF-Connecting-IP") = [])
    (h2 : http.Header.Get r.Header (bytes "True-Client-IP") = [])
    (h3 : http.Header.Get r.Header (bytes "X-Real-IP") = [])
    (hv : http.Header.Get r.Header (bytes "X-Forwarded-For") = v) (hne : v ≠ []) :
    getClientIP r = .ok (strings.TrimSpace (v.takeWhile (· ≠ 44))) ∧
    (∀ seg rest : GoString, v = seg ++ 44 :: rest → 44 ∉ seg →
      getClientIP r = .ok (strings.TrimSpace seg)) ∧
    (44 ∉ v → getClientIP r = .ok (strings.TrimSpace v)) ∧
    (IsSpaceOnly (v.takeWhile (· ≠ 44)) → getClientIP r = .ok []) := by
  subst hv
  have main := getClientIP_xff r h1 h2 h3 hne
  refine ⟨main, ?_, ?_, ?_⟩
  · intro seg rest e hseg
    rw [main, e, takeWhile_ne_append 44 seg rest hseg]
  · intro hno
    rw [main, takeWhile_ne_self 44 _ hno]
  · intro hso
    rw [main, TrimSpace_spaceOnly _ hso]

/-- Claim C3: with no non-empty trust header, `getClientIP` returns `host` for the peer
address `host:port` where `host` and `port` have no `[` (byte 91) and `port` no `:`
(byte 58), `addr` for the peer address `[addr]:port` where `port` has no `]` (byte 93),
and the peer address itself when it has no `:`. -/
theorem getClientIP_peer_address (r : http.Request)
    (hno : ∀ x ∈ headers, http.Header.Get r.Header x = []) :
    (∀ host port : GoString, r.RemoteAddr = host ++ bytes ":" ++ port →
      91 ∉ host → 91 ∉ port → 58 ∉ port → getClientIP r = .ok host) ∧
    (∀ addr port : GoString, r.RemoteAddr = bytes "[" ++ addr ++ bytes "]:" ++ port →
      93 ∉ port → getClientIP r = .ok addr) ∧
    (58 ∉ r.RemoteAddr → getClientIP r = .ok r.RemoteAddr) := by
  rw [getClientIP_fallback r hno]
  refine ⟨?_, ?_, ?_⟩
  · intro host port e h1 h2 h3
    rw [e]; exact fallback_hostport host port h1 h2 h3
  · intro addr port e h
    rw [e]; exact fallback_bracket addr port h
  · exact fallback_nocolon r.RemoteAddr

/-- Claim C4, amended: when some trust header has a non-empty value, `getClientIP`
returns a string that is equal to its own whitespace-trimmed form. -/
theorem getClientIP_header_trimmed (r : http.Request)
    (h : ∃ x ∈ headers, http.Header.Get r.Header x ≠ []) :
    ∃ ip, getClientIP r = .ok ip ∧ strings.TrimSpace ip = ip := by
  obtain ⟨x, hx, hne⟩ := h
  by_cases h1 : http.Header.Get r.Header (bytes "CF-Connecting-IP") = []
  · by_cases h2 : http.Header.Get r.Header (bytes "True-Client-IP") = []
    · by_cases h3 : http.Header.Get r.Header (bytes "X-Real-IP") = []
      · have h4 : http.Header.Get r.Header (bytes "X-Forwarded-For") ≠ [] := by
          simp only [headers, List.mem_cons, List.mem_singleton, List.not_mem_nil,
            or_false] at hx
          rcases hx with rfl | rfl | rfl | rfl
          · exact absurd h1 hne
          · exact absurd h2 hne
          · exact absurd h3 hne
          · exact hne
        exact ⟨_, getClientIP_xff r h1 h2 h3 h4, TrimSpace_idem _⟩
      · refine ⟨_, getClientIP_plain r [bytes "CF-Connecting-IP", bytes "True-Client-IP"]
          [bytes "X-Forwarded-For"] (bytes "X-Real-IP") rfl ?_ h3 (by decide),
          TrimSpace_idem _⟩
        intro y hy
        simp only [List.mem_cons, List.mem_singleton, List.not_mem_nil, or_false] at hy
        rcases hy with rfl | rfl
        · exact h1
        · exact h2
    · refine ⟨_, getClientIP_plain r [bytes "CF-Connecting-IP"]
        [bytes "X-Real-IP", bytes "X-Forwarded-For"] (bytes "True-Client-IP") rfl ?_ h2
        (by decide), TrimSpace_idem _⟩
      intro y hy
      simp only [List.mem_singleton] at hy
      rw [hy]; exact h1
  · exact ⟨_, getClientIP_plain r [] [bytes "True-Client-IP", bytes "X-Real-IP",
      bytes "X-Forwarded-For"] (bytes "CF-Connecting-IP") rfl (by simp) h1 (by decide),
      TrimSpace_idem _⟩

/-! ## textproto.CanonicalMIMEHeaderKey -/

theorem canonLoop_cons (u : Bool) (c : Nat) (t : GoString) :
    textproto.canonLoop u (c :: t) =
      canonByte u c :: textproto.canonLoop (decide (canonByte u c = 45)) t := rfl

theorem canonByte_idem (u : Bool) (c : Nat) : canonByte u (canonByte u c) = canonByte u c := by
  cases u <;> simp only [canonByte] <;> split_ifs <;> simp_all <;> omega

theorem canonLoop_idem (u : Bool) (s : GoString) :
    textproto.canonLoop u (textproto.canonLoop u s) = textproto.canonLoop u s := by
  induction s generalizing u with
  | nil => rfl
  | cons c t ih => rw [canonLoop_cons, canonLoop_cons, canonByte_idem, ih]

theorem Canonical_idem (s : GoString) :
    textproto.CanonicalMIMEHeaderKey (textproto.CanonicalMIMEHeaderKey s) =
      textproto.CanonicalMIMEHeaderKey s := by
  unfold textproto.CanonicalMIMEHeaderKey
  by_cases h : s.all textproto.validHeaderFieldByte = true
  · rw [if_pos h]
    split_ifs
    · exact canonLoop_idem true s
    · rfl
  · rw [if_neg h, if_neg h]

/-! ## The header map -/

theorem lookup_store (h : http.Header) (k k2 : GoString) (v : List GoString) :
    http.Header.lookup (http.Header.store h k v) k2 =
      if k = k2 then v else http.Header.lookup h k2 := by
  induction h with
  | nil => simp [http.Header.store, http.Header.lookup]
  | cons e t ih =>
    obtain ⟨k1, v1⟩ := e
    by_cases h1 : k1 = k
    · subst h1
      by_cases h2 : k1 = k2
      · simp [http.Header.store, http.Header.lookup, h2]
      · simp [http.Header.store, http.Header.lookup, h2]
    · by_cases h2 : k1 = k2
      · subst h2
        have h1s : ¬ k = k1 := fun e => h1 e.symm
        simp [http.Header.store, http.Header.lookup, h1, h1s]
      · simp [http.Header.store, http.Header.lookup, h1, h2, ih]

theorem keys_store (h : http.Header) (k : GoString) (v : List GoString) :
    keys (http.Header.store h k v) = if k ∈ keys h then keys h else keys h ++ [k] := by
  induction h with
  | nil => simp [http.Header.store, keys]
  | cons e t ih =>
    obtain ⟨k1, v1⟩ := e
    by_cases h1 : k1 = k
    · subst h1
      simp [http.Header.store, keys]
    · have h1s : ¬ k = k1 := fun e => h1 e.symm
      have e1 : keys (http.Header.store ((k1, v1) :: t) k v) =
          k1 :: keys (http.Header.store t k v) := by
        simp [http.Header.store, keys, h1]
      have e2 : keys ((k1, v1) :: t) = k1 :: keys t := rfl
      rw [e1, e2, ih]
      by_cases h2 : k ∈ keys t
      · simp [h2]
      · simp [h2, h1s]

theorem nodup_store (h : http.Header) (k : GoString) (v : List GoString)
    (hn : (keys h).Nodup) : (keys (http.Header.store h k v)).Nodup := by
  rw [keys_store]
  split_ifs with hk
  · exact hn
  · exact List.Nodup.append hn (List.nodup_singleton k) (by simpa using hk)

theorem mem_keys_store (h : http.Header) (k x : GoString) (v : List GoString)
    (hx : x ∈ keys (http.Header.store h k v)) : x = k ∨ x ∈ keys h := by
  rw [keys_store] at hx
  split_ifs at hx with hk
  · exact Or.inr hx
  · rcases List.mem_append.1 hx with h1 | h1
    · exact Or.inr h1
    · exact Or.inl (by simpa using h1)

theorem filter_store (h : http.Header) (k : GoString) (v : List GoString)
    (hn : (keys h).Nodup) :
    (http.Header.store h k v).filter (fun e => e.1 = k) = [(k, v)] := by
  induction h with
  | nil => simp [http.Header.store]
  | cons e t ih =>
    obtain ⟨k1, v1⟩ := e
    have e2 : keys ((k1, v1) :: t) = k1 :: keys t := rfl
    rw [e2, List.nodup_cons] at hn
    by_cases h1 : k1 = k
    · subst h1
      have hnone : t.filter (fun e => e.1 = k1) = [] := by
        apply List.filter_eq_nil_iff.2
        intro a ha
        simp only [decide_eq_true_eq]
        intro hk
        exact hn.1 (by rw [← hk]; exact List.mem_map_of_mem (·.1) ha)
      simp [http.Header.store, hnone]
    · simp [http.Header.store, h1, ih hn.2]

theorem WellFormed_nil : WellFormed [] := by
  simp [WellFormed, keys]

theorem WellFormed_store (h : http.Header) (k : GoString) (v : List GoString)
    (hw : WellFormed h) (hk : textproto.CanonicalMIMEHeaderKey k = k) :
    WellFormed (http.Header.store h k v) := by
  refine ⟨nodup_store h k v hw.1, ?_⟩
  intro x hx
  rcases mem_keys_store h k x v hx with rfl | h1
  · exact hk
  · exact hw.2 x h1

theorem WellFormed_Add (h : http.Header) (key value : GoString) (hw : WellFormed h) :
    WellFormed (http.Header.Add h key value) :=
  WellFormed_store h _ _ hw (Canonical_idem key)

theorem WellFormed_Set (h : http.Header) (key value : GoString) (hw : WellFormed h) :
    WellFormed (http.Header.Set h key value) :=
  WellFormed_store h _ _ hw (Canonical_idem key)

theorem WellFormed_copyValues (dst : http.Header) (key : GoString) (values : List GoString)
    (hw : WellFormed dst) : WellFormed (copyValues dst key values) := by
  induction values generalizing dst with
  | nil => exact hw
  | cons v vs ih => exact ih _ (WellFormed_Add dst key v hw)

theorem WellFormed_copyHeaders (dst src : http.Header) (hw : WellFormed dst) :
    WellFormed (copyHeaders dst src) := by
  induction src generalizing dst with
  | nil => exact hw
  | cons e t ih => exact ih _ (WellFormed_copyValues dst e.1 e.2 hw)

theorem lookup_copyValues (dst : http.Header) (key k : GoString) (values : List GoString) :
    http.Header.lookup (copyValues dst key values) k =
      if textproto.CanonicalMIMEHeaderKey key = k then http.Header.lookup dst k ++ values
      else http.Header.lookup dst k := by
  induction values generalizing dst with
  | nil => simp [copyValues]
  | cons v vs ih =>
    have step : copyValues dst key (v :: vs) = copyValues (http.Header.Add dst key v) key vs := rfl
    rw [step, ih, http.Header.Add, lookup_store]
    by_cases hk : textproto.CanonicalMIMEHeaderKey key = k
    · subst hk; simp
    · simp [hk]

theorem lookup_copyHeaders (dst src : http.Header) (k : GoString) :
    http.Header.lookup (copyHeaders dst src) k = http.Header.lookup dst k ++ gather src k := by
  induction src generalizing dst with
  | nil => simp [copyHeaders, gather]
  | cons e t ih =>
    obtain ⟨k1, v1⟩ := e
    have step : copyHeaders dst ((k1, v1) :: t) = copyHeaders (copyValues dst k1 v1) t := rfl
    rw [step, ih, lookup_copyValues]
    by_cases hk : textproto.CanonicalMIMEHeaderKey k1 = k
    · simp [gather, hk]
    · simp [gather, hk]

theorem gather_of_not_mem (src : http.Header) (k : GoString)
    (hc : ∀ x ∈ keys src, textproto.CanonicalMIMEHeaderKey x = x) (hk : k ∉ keys src) :
    gather src k = [] := by
  induction src with
  | nil => rfl
  | cons e t ih =>
    obtain ⟨k1, v1⟩ := e
    have e2 : keys ((k1, v1) :: t) = k1 :: keys t := rfl
    rw [e2] at hc hk
    have h1 : textproto.CanonicalMIMEHeaderKey k1 = k1 := hc k1 (List.mem_cons_self _ _)
    have hne : ¬ k1 = k := fun e => hk (by rw [e]; exact List.mem_cons_self _ _)
    have ht : k ∉ keys t := fun hm => hk (List.mem_cons_of_mem _ hm)
    simp only [gather, h1, hne, if_false]
    exact ih (fun x hx => hc x (List.mem_cons_of_mem _ hx)) ht

theorem gather_eq_lookup (src : http.Header) (k : GoString) (hw : WellFormed src) :
    gather src k = http.Header.lookup src k := by
  induction src with
  | nil => rfl
  | cons e t ih =>
    obtain ⟨k1, v1⟩ := e
    obtain ⟨hn, hc⟩ := hw
    have e2 : keys ((k1, v1) :: t) = k1 :: keys t := rfl
    rw [e2] at hn hc
    rw [List.nodup_cons] at hn
    have h1 : textproto.CanonicalMIMEHeaderKey k1 = k1 := hc k1 (List.mem_cons_self _ _)
    have hct : ∀ x ∈ keys t, textproto.CanonicalMIMEHeaderKey x = x :=
      fun x hx => hc x (List.mem_cons_of_mem _ hx)
    by_cases hk : k1 = k
    · subst hk
      simp [gather, h1, http.Header.lookup, gather_of_not_mem t k1 hct hn.1]
    · simp only [gather, h1, hk, if_false, http.Header.lookup]
      exact ih ⟨hn.2, hct⟩

theorem mem_keys_copyValues (dst : http.Header) (key x : GoString) (values : List GoString)
    (hx : x ∈ keys (copyValues dst key values)) :
    x ∈ keys dst ∨ x = textproto.CanonicalMIMEHeaderKey key := by
  induction values generalizing dst with
  | nil => exact Or.inl hx
  | cons v vs ih =>
    rcases ih (http.Header.Add dst key v) hx with h1 | h1
    · rcases mem_keys_store _ _ _ _ h1 with h2 | h2
      · exact Or.inr h2
      · exact Or.inl h2
    · exact Or.inr h1

theorem mem_keys_copyHeaders (dst src : http.Header) (x : GoString)
    (hx : x ∈ keys (copyHeaders dst src)) :
    x ∈ keys dst ∨ ∃ k ∈ keys src, x = textproto.CanonicalMIMEHeaderKey k := by
  induction src generalizing dst with
  | nil => exact Or.inl hx
  | cons e t ih =>
    obtain ⟨k1, v1⟩ := e
    have e2 : keys ((k1, v1) :: t) = k1 :: keys t := rfl
    rcases ih (copyValues dst k1 v1) hx with h1 | ⟨k, hk, hxk⟩
    · rcases mem_keys_copyValues dst k1 x v1 h1 with h2 | h2
      · exact Or.inl h2
      · exact Or.inr ⟨k1, by rw [e2]; exact List.mem_cons_self _ _, h2⟩
    · exact Or.inr ⟨k, by rw [e2]; exact List.mem_cons_of_mem _ hk, hxk⟩

/-! ## The handler -/

theorem WriteHeader_fresh (h : http.Header) (b : GoString) (code : Int)
    (hcode : 100 ≤ code ∧ code ≤ 999) :
    http.ResponseWriter.WriteHeader { header := h, status := none, body := b } code =
      .ok { header := h, status := some code, body := b } := by
  have hc : ¬ (code < 100 ∨ code > 999) := by omega
  simp [http.ResponseWriter.WriteHeader, http.checkWriteHeaderCode, hc]

theorem WriteHeader_fresh_invalid (h : http.Header) (b : GoString) (code : Int)
    (hcode : code < 100 ∨ code > 999) :
    http.ResponseWriter.WriteHeader { header := h, status := none, body := b } code =
      .error .invalidWriteHeaderCode := by
  simp [http.ResponseWriter.WriteHeader, http.checkWriteHeaderCode, hcode]

theorem Write_written (h : http.Header) (b x : GoString) (code : Int) :
    http.ResponseWriter.Write { header := h, status := some code, body := b } x =
      .ok { header := h, status := some code, body := b ++ x } := by
  simp [http.ResponseWriter.Write, http.ResponseWriter.WriteHeader]

theorem handler_forward (env : Env) (r : http.Request) (ip : GoString)
    (hpath : r.Path ≠ bytes "/health") (hip : getClientIP r = .ok ip)
    (hnew : env.newRequestErr r.Method (env.target ++ r.RequestURI) = false) :
    handler env r =
      match env.Do (targetReq env r ip) with
      | none =>
        { sent := [targetReq env r ip],
          w := http.Error { header := [], status := none, body := [] }
                (bytes "Failed to reach upstream") 502 }
      | some resp =>
        { sent := [targetReq env r ip],
          w := match http.ResponseWriter.WriteHeader
                  { header := copyHeaders [] resp.Header, status := none, body := [] }
                  resp.StatusCode with
               | .error p => .error p
               | .ok w1 => http.ResponseWriter.Write w1 resp.Body } := by
  unfold handler
  simp only [hpath, if_false, hip, hnew]
  cases env.Do (targetReq env r ip) <;> rfl

theorem handler_sent (env : Env) (r : http.Request) (ip : GoString)
    (hpath : r.Path ≠ bytes "/health") (hip : getClientIP r = .ok ip)
    (hnew : env.newRequestErr r.Method (env.target ++ r.RequestURI) = false) :
    (handler env r).sent = [targetReq env r ip] := by
  rw [handler_forward env r ip hpath hip hnew]
  cases env.Do (targetReq env r ip) <;> rfl

theorem targetReq_Header (env : Env) (r : http.Request) (ip : GoString) :
    (targetReq env r ip).Header =
      http.Header.store (copyHeaders [] r.Header)
        (textproto.CanonicalMIMEHeaderKey (bytes "X-MGM-Client-IP")) [ip] := rfl

/-- Claim C6: for a forwarded request (path other than `/health`, `getClientIP` returns
`ip`, `http.NewRequest` succeeds) exactly one request is handed to `client.Do`, and among
the entries of its header map exactly one has a key whose canonical form is that of
`X-MGM-Client-IP`; that entry carries the single value `ip`, so inbound values of the
header, under any letter case of its name, are not kept. -/
theorem handler_injects_client_ip (env : Env) (r : http.Request) (ip : GoString)
    (hpath : r.Path ≠ bytes "/health") (hip : getClientIP r = .ok ip)
    (hnew : env.newRequestErr r.Method (env.target ++ r.RequestURI) = false) :
    ∃ o, (handler env r).sent = [o] ∧
      o.Header.filter (fun e => textproto.CanonicalMIMEHeaderKey e.1 =
          textproto.CanonicalMIMEHeaderKey (bytes "X-MGM-Client-IP")) =
        [(textproto.CanonicalMIMEHeaderKey (bytes "X-MGM-Client-IP"), [ip])] ∧
      http.Header.Get o.Header (bytes "X-MGM-Client-IP") = ip := by
  refine ⟨targetReq env r ip, handler_sent env r ip hpath hip hnew, ?_, ?_⟩
  · rw [targetReq_Header]
    have hw := WellFormed_copyHeaders [] r.Header WellFormed_nil
    have hw2 := WellFormed_store (copyHeaders [] r.Header)
      (textproto.CanonicalMIMEHeaderKey (bytes "X-MGM-Client-IP")) [ip] hw (Canonical_idem _)
    rw [← filter_store (copyHeaders [] r.Header)
      (textproto.CanonicalMIMEHeaderKey (bytes "X-MGM-Client-IP")) [ip] hw.1]
    apply List.filter_congr
    intro e he
    have hc := hw2.2 e.1 (List.mem_map_of_mem (·.1) he)
    rw [hc]
  · rw [targetReq_Header, http.Header.Get, lookup_store, if_pos rfl]

/-- Claim C7: for a forwarded request with a well-formed inbound header map, every key
other than the canonical form of `X-MGM-Client-IP` has in the outbound header map exactly
the list of values it has in the inbound one, and every key of the outbound map is the
injected one or an inbound key. -/
theorem handler_preserves_headers (env : Env) (r : http.Request) (ip : GoString)
    (hpath : r.Path ≠ bytes "/health") (hip : getClientIP r = .ok ip)
    (hnew : env.newRequestErr r.Method (env.target ++ r.RequestURI) = false)
    (hwf : WellFormed r.Header) :
    ∃ o, (handler env r).sent = [o] ∧
      (∀ k, k ≠ textproto.CanonicalMIMEHeaderKey (bytes "X-MGM-Client-IP") →
        http.Header.lookup o.Header k = http.Header.lookup r.Header k) ∧
      (∀ k ∈ keys o.Header,
        k = textproto.CanonicalMIMEHeaderKey (bytes "X-MGM-Client-IP") ∨ k ∈ keys r.Header) := by
  refine ⟨targetReq env r ip, handler_sent env r ip hpath hip hnew, ?_, ?_⟩
  · intro k hk
    rw [targetReq_Header, lookup_store, if_neg (fun e => hk e.symm), lookup_copyHeaders,
      gather_eq_lookup r.Header k hwf]
    rfl
  · intro k hk
    rw [targetReq_Header] at hk
    rcases mem_keys_store _ _ _ _ hk with h1 | h1
    · exact Or.inl h1
    · rcases mem_keys_copyHeaders [] r.Header k h1 with h2 | ⟨x, hx, hkx⟩
      · simp [keys] at h2
      · right
        rw [hkx, hwf.2 x hx]
        exact hx

/-- The relay of an upstream response whose status code `w.WriteHeader` accepts and
`client.Do` can return as final (101, or 200 to 999), with a well-formed header map:
the handler writes exactly that status code, a header map with the same values under
every key and no further key, and exactly the body bytes of the response. -/
theorem handler_relays_valid_status (env : Env) (r : http.Request) (ip : GoString)
    (resp : http.Response)
    (hpath : r.Path ≠ bytes "/health") (hip : getClientIP r = .ok ip)
    (hnew : env.newRequestErr r.Method (env.target ++ r.RequestURI) = false)
    (hdo : env.Do (targetReq env r ip) = some resp) (hwf : WellFormed resp.Header)
    (hcode : resp.StatusCode = 101 ∨ (200 ≤ resp.StatusCode ∧ resp.StatusCode ≤ 999)) :
    ∃ w, (handler env r).w = .ok w ∧
      w.status = some resp.StatusCode ∧
      (∀ k, http.Header.lookup w.header k = http.Header.lookup resp.Header k) ∧
      (∀ k ∈ keys w.header, k ∈ keys resp.Header) ∧
      w.body = resp.Body ∧
      (handler env r).sent = [targetReq env r ip] := by
  have hrange : 100 ≤ resp.StatusCode ∧ resp.StatusCode ≤ 999 := by omega
  have hw : (handler env r).w =
      .ok { header := copyHeaders [] resp.Header, status := some resp.StatusCode,
            body := resp.Body } := by
    rw [handler_forward env r ip hpath hip hnew, hdo]
    simp only [WriteHeader_fresh _ _ _ hrange, Write_written]
    rfl
  refine ⟨_, hw, rfl, ?_, ?_, rfl, handler_sent env r ip hpath hip hnew⟩
  · intro k
    show http.Header.lookup (copyHeaders [] resp.Header) k = _
    rw [lookup_copyHeaders, gather_eq_lookup resp.Header k hwf]
    rfl
  · intro k hk
    have hk2 : k ∈ keys (copyHeaders [] resp.Header) := hk
    rcases mem_keys_copyHeaders [] resp.Header k hk2 with h2 | ⟨x, hx, hkx⟩
    · simp [keys] at h2
    · rw [hkx, hwf.2 x hx]
      exact hx

/-- An upstream response whose status code is below 100 or above 999 makes
`w.WriteHeader(resp.StatusCode)` panic: the handler writes no status, header or body. -/
theorem handler_invalid_status (env : Env) (r : http.Request) (ip : GoString)
    (resp : http.Response)
    (hpath : r.Path ≠ bytes "/health") (hip : getClientIP r = .ok ip)
    (hnew : env.newRequestErr r.Method (env.target ++ r.RequestURI) = false)
    (hdo : env.Do (targetReq env r ip) = some resp)
    (hcode : resp.StatusCode < 100 ∨ resp.StatusCode > 999) :
    handler env r =
      { sent := [targetReq env r ip], w := .error .invalidWriteHeaderCode } := by
  rw [handler_forward env r ip hpath hip hnew, hdo]
  simp only [WriteHeader_fresh_invalid _ _ _ hcode]

theorem Error_fresh_502 :
    http.Error { header := [], status := none, body := [] }
      (bytes "Failed to reach upstream") 502 =
    .ok { header := [(bytes "Content-Type", [bytes "text/plain; charset=utf-8"]),
                     (bytes "X-Content-Type-Options", [bytes "nosniff"])],
          status := some 502, body := bytes "Failed to reach upstream" ++ [10] } := by
  decide

theorem Error_fresh_500 :
    http.Error { header := [], status := none, body := [] }
      (bytes "Failed to create request") 500 =
    .ok { header := [(bytes "Content-Type", [bytes "text/plain; charset=utf-8"]),
                     (bytes "X-Content-Type-Options", [bytes "nosniff"])],
          status := some 500, body := bytes "Failed to create request" ++ [10] } := by
  decide

/-- Claim C9, amended: when `client.Do` returns an error, the handler answers with status
502, the headers that `http.Error` sets, and the body `Failed to reach upstream`
followed by a newline; exactly one request was handed to `client.Do`, and nothing of an
upstream response is in the answer. -/
theorem handler_upstream_unreachable (env : Env) (r : http.Request) (ip : GoString)
    (hpath : r.Path ≠ bytes "/health") (hip : getClientIP r = .ok ip)
    (hnew : env.newRequestErr r.Method (env.target ++ r.RequestURI) = false)
    (hdo : env.Do (targetReq env r ip) = none) :
    handler env r =
      { sent := [targetReq env r ip],
        w := .ok { header := [(bytes "Content-Type", [bytes "text/plain; charset=utf-8"]),
                              (bytes "X-Content-Type-Options", [bytes "nosniff"])],
                   status := some 502, body := bytes "Failed to reach upstream" ++ [10] } } := by
  rw [handler_forward env r ip hpath hip hnew, hdo]
  simp only [Error_fresh_502]

/-- Claim C10: the handler answers with status 200, body `ok`, no header and no call of
`client.Do` exactly when the path of the request is `/health`, whatever the headers,
the environment and the rest of the request. -/
theorem handler_health (env : Env) (r : http.Request) :
    handler env r = { sent := [],
                      w := .ok { header := [], status := some 200, body := bytes "ok" } }
      ↔ r.Path = bytes "/health" := by
  constructor
  · intro h
    by_contra hpath
    unfold handler at h
    simp only [hpath, if_false] at h
    cases hip : getClientIP r with
    | error p =>
      rw [hip] at h
      have hw := congrArg Outcome.w h
      simp at hw
    | ok ip =>
      rw [hip] at h
      simp only at h
      cases hnew : env.newRequestErr r.Method (env.target ++ r.RequestURI) with
      | true =>
        rw [hnew] at h
        simp only [if_true, Error_fresh_500] at h
        have hw := congrArg Outcome.w h
        simp at hw
      | false =>
        rw [hnew] at h
        simp only [Bool.false_eq_true, if_false] at h
        cases hdo : env.Do (targetReq env r ip) with
        | none =>
          rw [hdo] at h
          have hs := congrArg Outcome.sent h
          simp at hs
        | some resp =>
          rw [hdo] at h
          have hs := congrArg Outcome.sent h
          simp at hs
  · intro hpath
    unfold handler
    rw [if_pos hpath]
    rfl

/-! ## The bounded loops reach the end of the string -/

theorem decodeCore_size_pos (n s0 s1 s2 s3 : Nat) (hn : ¬ n < 1) :
    1 ≤ (decodeCore n s0 s1 s2 s3).2 := by
  unfold decodeCore
  rw [if_neg hn]
  by_cases ha : s0 < 0x80
  · rw [if_pos ha]
  rw [if_neg ha]
  cases utf8.first s0 with
  | none => exact le_refl 1
  | some x =>
    obtain ⟨sz, lo, hi⟩ := x
    simp only
    split_ifs <;> simp

theorem decode_size_pos (s : GoString) (h : s ≠ []) : 1 ≤ (utf8.DecodeRuneInString s).2 := by
  have hl : ¬ s.length < 1 := by
    cases s with
    | nil => exact absurd rfl h
    | cons a t => simp
  rw [decode_eq_core]
  exact decodeCore_size_pos _ _ _ _ _ hl

theorem indexOf?_nil_none (sep : GoString) (h : sep ≠ []) : strings.indexOf? sep [] = none := by
  simp [strings.indexOf?, h]

theorem countLoop_fuel (sep : GoString) (hsep : sep ≠ []) (n m : Nat) (s : GoString)
    (hn : s.length ≤ n) (hm : s.length ≤ m) :
    strings.countLoop sep n s = strings.countLoop sep m s := by
  induction n generalizing m s with
  | zero =>
    have hs : s = [] := List.length_eq_zero.1 (by omega)
    subst hs
    cases m with
    | zero => rfl
    | succ m => simp [strings.countLoop, indexOf?_nil_none sep hsep]
  | succ n ih =>
    cases m with
    | zero =>
      have hs : s = [] := List.length_eq_zero.1 (by omega)
      subst hs
      simp [strings.countLoop, indexOf?_nil_none sep hsep]
    | succ m =>
      simp only [strings.countLoop]
      cases hi : strings.indexOf? sep s with
      | none => rfl
      | some i =>
        have hpos : 0 < sep.length := List.length_pos.2 hsep
        have hlen : (s.drop (i + sep.length)).length = s.length - (i + sep.length) :=
          List.length_drop _ _
        simp only
        rw [ih m (s.drop (i + sep.length)) (by omega) (by omega)]

theorem runeCountLoop_fuel (n m : Nat) (s : GoString) (hn : s.length ≤ n)
    (hm : s.length ≤ m) : strings.runeCountLoop n s = strings.runeCountLoop m s := by
  induction n generalizing m s with
  | zero =>
    have hs : s = [] := List.length_eq_zero.1 (by omega)
    subst hs
    cases m <;> simp [strings.runeCountLoop]
  | succ n ih =>
    cases m with
    | zero =>
      have hs : s = [] := List.length_eq_zero.1 (by omega)
      subst hs
      simp [strings.runeCountLoop]
    | succ m =>
      simp only [strings.runeCountLoop]
      by_cases hs : s = []
      · simp [hs]
      · have hsz := decode_size_pos s hs
        have hlen : (s.drop (utf8.DecodeRuneInString s).2).length
            = s.length - (utf8.DecodeRuneInString s).2 := List.length_drop _ _
        have hpos : 0 < s.length := List.length_pos.2 hs
        rw [if_neg hs, if_neg hs, ih m _ (by omega) (by omega)]

theorem explode_fuel (n m : Nat) (s : GoString) (hn : s.length ≤ n) (hm : s.length ≤ m) :
    strings.explode n s = strings.explode m s := by
  induction n generalizing m s with
  | zero =>
    have hs : s = [] := List.length_eq_zero.1 (by omega)
    subst hs
    cases m <;> simp [strings.explode]
  | succ n ih =>
    cases m with
    | zero =>
      have hs : s = [] := List.length_eq_zero.1 (by omega)
      subst hs
      simp [strings.explode]
    | succ m =>
      simp only [strings.explode]
      by_cases hs : s = []
      · simp [hs]
      · have hsz := decode_size_pos s hs
        have hlen : (s.drop (utf8.DecodeRuneInString s).2).length
            = s.length - (utf8.DecodeRuneInString s).2 := List.length_drop _ _
        have hpos : 0 < s.length := List.length_pos.2 hs
        rw [if_neg hs, if_neg hs, ih m _ (by omega) (by omega)]

/-! ## The claims at concrete requests -/

theorem getClientIP_precedence_witness :
    getClientIP trueClientRequest = .ok (bytes "1.2.3.4") ∧
      getClientIP trueClientRequest2 = getClientIP trueClientRequest :=
  ⟨((getClientIP_precedence trueClientRequest [bytes "CF-Connecting-IP"]
      [bytes "X-Real-IP", bytes "X-Forwarded-For"] (bytes "True-Client-IP") rfl
      (by decide) (by decide)).1 (by decide)).trans (by decide),
   (getClientIP_precedence trueClientRequest [bytes "CF-Connecting-IP"]
      [bytes "X-Real-IP", bytes "X-Forwarded-For"] (bytes "True-Client-IP") rfl
      (by decide) (by decide)).2 trueClientRequest2 (by decide) (by decide)⟩

theorem blankFirst_spaceOnly :
    IsSpaceOnly ((bytes " , 5.6.7.8").takeWhile (· ≠ 44)) :=
  ⟨[[32]], by decide, by decide⟩

theorem getClientIP_forwarded_for_first_witness :
    getClientIP forwardedRequest = .ok (bytes "1.2.3.4") ∧
      getClientIP blankFirstRequest = .ok [] :=
  ⟨((getClientIP_forwarded_for_first forwardedRequest (bytes "  1.2.3.4  ,  5.6.7.8  ")
      (by decide) (by decide) (by decide) (by decide) (by decide)).1).trans (by decide),
   (getClientIP_forwarded_for_first blankFirstRequest (bytes " , 5.6.7.8")
      (by decide) (by decide) (by decide) (by decide) (by decide)).2.2.2 blankFirst_spaceOnly⟩

theorem getClientIP_peer_address_witness :
    getClientIP ipv4PeerRequest = .ok (bytes "192.168.1.1") ∧
      getClientIP ipv6PeerRequest = .ok (bytes "::1") ∧
      getClientIP noPortRequest = .ok (bytes "localhost") :=
  ⟨(getClientIP_peer_address ipv4PeerRequest (by decide)).1 (bytes "192.168.1.1")
      (bytes "12345") (by decide) (by decide) (by decide) (by decide),
   (getClientIP_peer_address ipv6PeerRequest (by decide)).2.1 (bytes "::1") (bytes "12345")
      (by decide) (by decide),
   (getClientIP_peer_address noPortRequest (by decide)).2.2 (by decide)⟩

/-- Claim C4, as stated, fails: with no trust header and the peer address ` 10.0.0.1:80`,
`getClientIP` returns ` 10.0.0.1`, which is not equal to its whitespace-trimmed form. -/
theorem getClientIP_fallback_untrimmed :
    getClientIP paddedPeerRequest = .ok (bytes " 10.0.0.1") ∧
      strings.TrimSpace (bytes " 10.0.0.1") ≠ bytes " 10.0.0.1" := by
  decide

theorem getClientIP_header_trimmed_witness :
    (∃ x ∈ headers, http.Header.Get cloudflareRequest.Header x ≠ []) ∧
      ∃ ip, getClientIP cloudflareRequest = .ok ip ∧ strings.TrimSpace ip = ip :=
  ⟨⟨bytes "CF-Connecting-IP", by decide, by decide⟩,
   getClientIP_header_trimmed cloudflareRequest
    ⟨bytes "CF-Connecting-IP", by decide, by decide⟩⟩

/-- Claim C5 fails on the code: with no trust header and the peer address `]:[`, the last
`]` is at index 0 and the slice expression `ip[1:bracketIdx]` is `ip[1:0]`, which
panics. -/
theorem getClientIP_panics_bracket_first :
    getClientIP bracketFirstRequest = .error .sliceBounds := by
  decide

theorem handler_injects_client_ip_witness :
    ∃ o, (handler upstreamEnv eventsRequest).sent = [o] ∧
      o.Header.filter (fun e => textproto.CanonicalMIMEHeaderKey e.1 =
          textproto.CanonicalMIMEHeaderKey (bytes "X-MGM-Client-IP")) =
        [(textproto.CanonicalMIMEHeaderKey (bytes "X-MGM-Client-IP"),
          [bytes "198.51.100.25"])] ∧
      http.Header.Get o.Header (bytes "X-MGM-Client-IP") = bytes "198.51.100.25" :=
  handler_injects_client_ip upstreamEnv eventsRequest (bytes "198.51.100.25")
    (by decide) (by decide) rfl

theorem handler_preserves_headers_witness :
    ∃ o, (handler upstreamEnv eventsRequest).sent = [o] ∧
      (∀ k, k ≠ textproto.CanonicalMIMEHeaderKey (bytes "X-MGM-Client-IP") →
        http.Header.lookup o.Header k = http.Header.lookup eventsRequest.Header k) ∧
      (∀ k ∈ keys o.Header,
        k = textproto.CanonicalMIMEHeaderKey (bytes "X-MGM-Client-IP") ∨
          k ∈ keys eventsRequest.Header) :=
  handler_preserves_headers upstreamEnv eventsRequest (bytes "198.51.100.25")
    (by decide) (by decide) rfl (by decide)

theorem handler_relays_valid_status_example :
    ∃ w, (handler upstreamEnv eventsRequest).w = .ok w ∧
      w.status = some 404 ∧
      (∀ k, http.Header.lookup w.header k = http.Header.lookup notFoundResponse.Header k) ∧
      (∀ k ∈ keys w.header, k ∈ keys notFoundResponse.Header) ∧
      w.body = bytes "no such event" ∧
      (handler upstreamEnv eventsRequest).sent =
        [targetReq upstreamEnv eventsRequest (bytes "198.51.100.25")] :=
  handler_relays_valid_status upstreamEnv eventsRequest (bytes "198.51.100.25")
    notFoundResponse (by decide) (by decide) rfl rfl (by decide) (by decide)

/-- Claim C8 fails on the code: when the upstream answers a forwarded request with the
status line `099` and the body `weird`, `client.Do` returns the response and
`w.WriteHeader(resp.StatusCode)` panics, so after the one dispatch the handler relays no
status code, no header and no body. -/
theorem handler_panics_invalid_status :
    handler invalidStatusEnv eventsRequest =
      { sent := [targetReq invalidStatusEnv eventsRequest (bytes "198.51.100.25")],
        w := .error .invalidWriteHeaderCode } := by
  decide

/-- Claim C9, as stated, fails on the body: when the upstream cannot be reached the handler
answers 502 after one call of `client.Do`, and the body is not `Failed to reach upstream`
but that text followed by a newline. -/
theorem handler_unreachable_body_newline :
    ∃ w, (handler unreachableEnv eventsRequest).w = .ok w ∧ w.status = some 502 ∧
      (handler unreachableEnv eventsRequest).sent.length = 1 ∧
      w.body ≠ bytes "Failed to reach upstream" ∧
      w.body = bytes "Failed to reach upstream" ++ [10] :=
  ⟨_, rfl, by decide, by decide, by decide, by decide⟩

theorem handler_upstream_unreachable_witness :
    handler unreachableEnv eventsRequest =
      { sent := [targetReq unreachableEnv eventsRequest (bytes "198.51.100.25")],
        w := .ok { header := [(bytes "Content-Type", [bytes "text/plain; charset=utf-8"]),
                              (bytes "X-Content-Type-Options", [bytes "nosniff"])],
                   status := some 502, body := bytes "Failed to reach upstream" ++ [10] } } :=
  handler_upstream_unreachable unreachableEnv eventsRequest (bytes "198.51.100.25")
    (by decide) (by decide) rfl rfl

end MgmProxy
